import Mathlib

/-!
Verification development for `tools/bibtex_to_json.py`: a BibTeX-to-JSON
conversion utility.  The Python source is shallowly embedded below: Python
strings become `List Char`, dictionaries become insertion-ordered association
lists with last-write-wins update, and the unstructured `while` scan loops
become fuel-indexed structural recursions; each wrapper instantiates the fuel
with a bound derived from the remaining input, and (un)bounded-loop claims
prove that this fuel always suffices.  Character classes used by the source's
regular expressions (`\s`, `\d`, `[A-Za-z]`) are modelled over their ASCII
meanings; the source is only run on ASCII-compatible BibTeX exports and no
claim involves non-ASCII digit or whitespace code points.
-/

namespace Bib

/-- Convert a Lean string literal to the `List Char` representation used by
the embedding. -/
def S (s : String) : List Char := s.data

/-- Python `str.isspace` / regex `\s` over ASCII: the six whitespace
characters space, tab, newline, carriage return, vertical tab, form feed. -/
def pyIsSpace (c : Char) : Bool :=
  c = ' ' || c = '\t' || c = '\n' || c = '\r' || c = '\x0b' || c = '\x0c'

/-- Regex `[A-Za-z]`. -/
def isAsciiAlpha (c : Char) : Bool :=
  ('A' ≤ c && c ≤ 'Z') || ('a' ≤ c && c ≤ 'z')

/-- Regex `[A-Za-z0-9_\-]` (the tail of a field-name identifier). -/
def isIdentTail (c : Char) : Bool :=
  isAsciiAlpha c || ('0' ≤ c && c ≤ '9') || c = '_' || c = '-'

/-- Regex `\d` over ASCII. -/
def isAsciiDigit (c : Char) : Bool :=
  '0' ≤ c && c ≤ '9'

/-- Python `str.lower` on an ASCII letter; other characters unchanged. -/
def asciiLower (c : Char) : Char :=
  if 'A' ≤ c && c ≤ 'Z' then Char.ofNat (c.toNat + 32) else c

/-- Python `str.lstrip()`. -/
def lstrip (s : List Char) : List Char := s.dropWhile pyIsSpace

/-- Python `str.rstrip()`. -/
def rstrip (s : List Char) : List Char := (s.reverse.dropWhile pyIsSpace).reverse

/-- Python `str.strip()`. -/
def pyStrip (s : List Char) : List Char := rstrip (lstrip s)

/-- Python `str.rstrip(",")`: remove all trailing commas. -/
def rstripComma (s : List Char) : List Char :=
  (s.reverse.dropWhile (fun c => c = ',')).reverse

/-- Python slice `s[a:b]` (with the usual clamping). -/
def pySlice (s : List Char) (a b : Nat) : List Char := (s.take b).drop a

/-- `_strip_outer_braces` from the source: strip whitespace, then all
trailing commas, then one matching pair of outer `{...}` or `"..."`
delimiters (re-stripping whitespace inside). -/
def stripOuterBraces (value : List Char) : List Char :=
  let v := rstripComma (pyStrip value)
  if v.length ≥ 2 &&
      ((v.head? = some '{' && v.getLast? = some '}') ||
       (v.head? = some '"' && v.getLast? = some '"')) then
    pyStrip (v.drop 1).dropLast
  else v

/-- Helper for `re.sub(r"\s+", " ", value)`: the flag records whether the
previous character was inside a whitespace run (whose single replacement
space has already been emitted). -/
def collapseWsGo : Bool → List Char → List Char
  | _, [] => []
  | inRun, c :: cs =>
    if pyIsSpace c then
      if inRun then collapseWsGo true cs else ' ' :: collapseWsGo true cs
    else c :: collapseWsGo false cs

/-- `re.sub(r"\s+", " ", value)`: collapse every maximal whitespace run to a
single space. -/
def collapseWs (s : List Char) : List Char := collapseWsGo false s

/-- Fuelled scanner for `re.sub(r"\{([^{}]+)\}", r"\1", value)`: at a `{`,
greedily take the non-empty brace-free span; if it is closed by `}`, emit the
span and continue after the `}`, otherwise (or at any other character) emit
one character and continue.  Each step consumes at least one input character,
so fuel `s.length` is exact; at fuel 0 at most one character remains, which
cannot contain a `{...}` group. -/
def unbraceF : Nat → List Char → List Char
  | 0, s => s
  | _ + 1, [] => []
  | fuel + 1, c :: rest =>
    if c = '{' then
      let inner := rest.takeWhile (fun d => d ≠ '{' && d ≠ '}')
      let rest2 := rest.drop inner.length
      if inner ≠ [] && rest2.head? = some '}' then
        inner ++ unbraceF fuel rest2.tail
      else
        c :: unbraceF fuel rest
    else c :: unbraceF fuel rest

/-- `re.sub(r"\{([^{}]+)\}", r"\1", value)`: remove one level of braces
around each maximal non-empty brace-free span, scanning left to right. -/
def unbrace (s : List Char) : List Char := unbraceF s.length s

/-- `_clean_tex` from the source: collapse whitespace, unwrap flat `{...}`
spans, strip. -/
def cleanTex (value : List Char) : List Char :=
  pyStrip (unbrace (collapseWs value))

/-- Skip over whitespace: first index `≥ i` holding a non-space character
(or the length of `t`).  Models `while i < n and text[i].isspace(): i += 1`. -/
def skipWs (t : List Char) (i : Nat) : Nat :=
  i + ((t.drop i).takeWhile pyIsSpace).length

/-- The brace-depth loop of `_parse_value`: starting at a `{` with depth 0,
`{` increments the depth, `}` decrements it and, on reaching depth 0, stops
just past that `}`.  Runs to the end of `t` on unbalanced input.  One
character is consumed per step, so fuel `t.length - i` is exact. -/
def braceScanF : Nat → List Char → Nat → Int → Nat
  | 0, _, i, _ => i
  | fuel + 1, t, i, depth =>
    match t.get? i with
    | none => i
    | some ch =>
      if ch = '{' then braceScanF fuel t (i + 1) (depth + 1)
      else if ch = '}' then
        if depth - 1 = 0 then i + 1 else braceScanF fuel t (i + 1) (depth - 1)
      else braceScanF fuel t (i + 1) depth

/-- The quote loop of `_parse_value`: scan to the matching unescaped `"`
(backslash escapes the next character).  Returns whether a closing quote was
found and the index just past it (or the end of `t`). -/
def quoteScanF : Nat → List Char → Nat → Bool → Bool × Nat
  | 0, _, i, _ => (false, i)
  | fuel + 1, t, i, escaped =>
    match t.get? i with
    | none => (false, i)
    | some ch =>
      if escaped then quoteScanF fuel t (i + 1) false
      else if ch = '\\' then quoteScanF fuel t (i + 1) true
      else if ch = '"' then (true, i + 1)
      else quoteScanF fuel t (i + 1) false

/-- `_parse_value` from the source: parse one BibTeX value of `t` starting at
index `i0`, returning the raw value text and the index just past it. -/
def parseValue (t : List Char) (i0 : Nat) : List Char × Nat :=
  let n := t.length
  let i := skipWs t i0
  match t.get? i with
  | none => ([], i)
  | some c =>
    if c = '{' then
      let j := braceScanF (n - i) t i 0
      (pyStrip (pySlice t i j), j)
    else if c = '"' then
      let r := quoteScanF (n - (i + 1)) t (i + 1) false
      if r.1 then ('"' :: (pySlice t (i + 1) (r.2 - 1) ++ ['"']), r.2)
      else ('"' :: (pySlice t (i + 1) r.2 ++ ['"']), r.2)
    else
      let w := (t.drop i).takeWhile (fun d => d ≠ ',' && d ≠ '\n' && d ≠ '\r' && d ≠ '}')
      (pyStrip w, i + w.length)

/-- Python `str.splitlines` (over the line boundaries `\n`, `\r\n`, `\r`
that occur in BibTeX exports), accumulating the current line reversed. -/
def splitlinesGo : List Char → List Char → List (List Char)
  | [], cur => if cur = [] then [] else [cur.reverse]
  | '\r' :: '\n' :: rest, cur => cur.reverse :: splitlinesGo rest []
  | '\r' :: rest, cur => cur.reverse :: splitlinesGo rest []
  | '\n' :: rest, cur => cur.reverse :: splitlinesGo rest []
  | c :: rest, cur => splitlinesGo rest (c :: cur)

/-- The comment-stripping preprocessing of `parse_bibtex`: drop every line
whose first non-whitespace character is `%`, and rejoin with `\n`. -/
def stripCommentLines (raw : List Char) : List Char :=
  List.intercalate ['\n']
    ((splitlinesGo raw []).filter (fun line => ¬ (lstrip line).head? = some '%'))

/-- Python `str.find(c, i)` returning `none` for `-1`. -/
def findFrom (s : List Char) (c : Char) (i : Nat) : Option Nat :=
  match (s.drop i).findIdx? (fun d => d = c) with
  | some k => some (i + k)
  | none => none

/-- `re.match(r"([A-Za-z]+)\s*\{", raw[i:])`: on success, the lowercased
entry type and the absolute index just past the `{`. -/
def matchEntryType (s : List Char) (i : Nat) : Option (List Char × Nat) :=
  let t := s.drop i
  let name := t.takeWhile isAsciiAlpha
  if name = [] then none
  else
    let rest := t.drop name.length
    let ws := rest.takeWhile pyIsSpace
    if (rest.drop ws.length).head? = some '{' then
      some (name.map asciiLower, i + name.length + ws.length + 1)
    else none

/-- `re.match(r"([A-Za-z][A-Za-z0-9_\-]*)\s*=", fields_text[j:])`: on
success, the lowercased field name and the absolute index just past `=`. -/
def matchFieldName (t : List Char) (j : Nat) : Option (List Char × Nat) :=
  match t.drop j with
  | [] => none
  | c :: rest =>
    if isAsciiAlpha c then
      let more := rest.takeWhile isIdentTail
      let rest2 := rest.drop more.length
      let ws := rest2.takeWhile pyIsSpace
      if (rest2.drop ws.length).head? = some '=' then
        some ((c :: more).map asciiLower, j + 1 + more.length + ws.length + 1)
      else none
    else none

/-- The separator class skipped between fields: `"\n\r\t ,"`. -/
def isFieldSep (c : Char) : Bool :=
  c = '\n' || c = '\r' || c = '\t' || c = ' ' || c = ','

/-- Skip whitespace and commas before a field name. -/
def skipSeps (t : List Char) (j : Nat) : Nat :=
  j + ((t.drop j).takeWhile isFieldSep).length

/-- After a value: advance to the next comma, stopping early at a literal
newline or the end of the field block (the comma itself is not consumed). -/
def consumeToComma (t : List Char) (j : Nat) : Nat :=
  j + ((t.drop j).takeWhile (fun c => c ≠ ',' && c ≠ '\n')).length

/-- The field map: an insertion-ordered association list mirroring a Python
`dict` (lookup by first occurrence; keys are unique by construction). -/
abbrev FieldMap := List (List Char × List Char)

/-- Python `d[k] = v`: overwrite in place if the key is present, else append. -/
def dictSet (m : FieldMap) (k v : List Char) : FieldMap :=
  if m.any (fun p => p.1 = k) then
    m.map (fun p => if p.1 = k then (k, v) else p)
  else m ++ [(k, v)]

/-- Python `d.get(k)` (`none` models Python `None`). -/
def dictGet? (m : FieldMap) (k : List Char) : Option (List Char) :=
  (m.find? (fun p => p.1 = k)).map (fun p => p.2)

/-- Python `d.get(k, default)`. -/
def dictGetD (m : FieldMap) (k d : List Char) : List Char :=
  (dictGet? m k).getD d

/-- The field-block loop of `parse_bibtex`: skip separators, match a field
name, parse its value, store the cleaned value when the raw value is
non-empty, advance past the next comma; stop at the end of the block or at
the first unmatchable field name.  Every iteration advances the index by at
least one character (proved in `parseFieldsF_total`), so the canonical fuel
`t.length + 1` always suffices; `none` models fuel exhaustion. -/
def parseFieldsF : Nat → List Char → Nat → FieldMap → Option FieldMap
  | 0, _, _, _ => none
  | fuel + 1, t, j0, fields =>
    let j := skipSeps t j0
    if j ≥ t.length then some fields
    else
      match matchFieldName t j with
      | none => some fields
      | some (name, j2) =>
        let v := parseValue t j2
        let fields2 :=
          if v.1 ≠ [] then dictSet fields name (cleanTex (stripOuterBraces v.1))
          else fields
        let j4 := consumeToComma t v.2
        let j5 := if t.get? j4 = some ',' then j4 + 1 else j4
        parseFieldsF fuel t j5 fields2

/-- A parsed BibTeX entry: `BibEntry` from the source. -/
structure BibEntry where
  entry_type : List Char
  citekey : List Char
  fields : FieldMap
deriving DecidableEq, Repr

/-- The brace-depth loop locating the end of an entry: starting at depth 1
just after the citekey's comma, `{` increments, `}` decrements, stopping when
the depth returns to 0 or the input ends. -/
def depthScanF : Nat → List Char → Nat → Int → Nat
  | 0, _, i, _ => i
  | fuel + 1, raw, i, depth =>
    if depth ≤ 0 then i
    else
      match raw.get? i with
      | none => i
      | some ch =>
        let d := if ch = '{' then depth + 1 else if ch = '}' then depth - 1 else depth
        depthScanF fuel raw (i + 1) d

/-- The main scan loop of `parse_bibtex`: find the next `@`; try to match an
entry type (resuming one character later on failure); find the citekey's
comma (aborting the whole scan if none remains); delimit the field block by
brace depth; parse the fields; append the entry and continue.  Every
iteration advances the scan index by at least one character (proved in
`parseLoop_total`), so the canonical fuel `raw.length + 1` always suffices;
`none` models fuel exhaustion. -/
def parseLoop : Nat → List Char → Nat → List BibEntry → Option (List BibEntry)
  | 0, _, _, _ => none
  | fuel + 1, raw, i, acc =>
    if i < raw.length then
      match findFrom raw '@' i with
      | none => some acc
      | some atPos =>
        let i1 := atPos + 1
        match matchEntryType raw i1 with
        | none => parseLoop fuel raw i1 acc
        | some (etype, i2) =>
          match findFrom raw ',' i2 with
          | none => some acc
          | some comma =>
            let citekey := pyStrip (pySlice raw i2 comma)
            let i3 := comma + 1
            let i4 := depthScanF (raw.length - i3) raw i3 1
            let ftext := pySlice raw i3 (i4 - 1)
            match parseFieldsF (ftext.length + 1) ftext 0 [] with
            | none => none
            | some fields =>
              parseLoop fuel raw i4 (acc ++ [⟨etype, citekey, fields⟩])
    else some acc

/-- `parse_bibtex` from the source: strip comment lines, then run the scan
loop with its canonical fuel. -/
def parse_bibtex (raw : List Char) : Option (List BibEntry) :=
  let r := stripCommentLines raw
  parseLoop (r.length + 1) r 0 []

/-- The literal author separator `" and "`. -/
def sepAnd : List Char := S " and "

/-- Python `s.split(" and ")`: non-overlapping left-to-right splitting on the
literal separator.  Each step consumes at least one character, so fuel
`s.length + 1` always suffices (the base case is unreachable). -/
def splitAndF : Nat → List Char → List Char → List (List Char)
  | 0, s, cur => [cur.reverse ++ s]
  | fuel + 1, s, cur =>
    if sepAnd.isPrefixOf s then cur.reverse :: splitAndF fuel (s.drop 5) []
    else
      match s with
      | [] => [cur.reverse]
      | c :: rest => splitAndF fuel rest (c :: cur)

/-- Python `s.split(" and ")`. -/
def splitAnd (s : List Char) : List (List Char) :=
  splitAndF (s.length + 1) s []

/-- Do the first four characters of `s` exist and consist of digits? -/
def fourDigitStart (s : List Char) : Bool :=
  (s.take 4).length = 4 && (s.take 4).all isAsciiDigit

/-- `re.findall(r"\d{4}", s)[0]`: the first position at which four
consecutive digits occur, returning those four digits. -/
def findFourDigits : List Char → Option (List Char)
  | [] => none
  | c :: rest =>
    if fourDigitStart (c :: rest) then some ((c :: rest).take 4)
    else findFourDigits rest

/-- Python `int` on a string of decimal digits. -/
def digitsToNat (s : List Char) : Nat :=
  s.foldl (fun acc c => acc * 10 + (c.toNat - 48)) 0

/-- A publication record: `PublicationRecord` from the spec, i.e. the dict
built by `entry_to_publication` after its `pop` calls.  Optional keys are
modelled by `Option`: `none` means the key was popped (absent from the
emitted JSON object). -/
structure Publication where
  title : List Char
  authors : Option (List (List Char))
  year : Option Nat
  venue : Option (List Char)
  type : List Char
  links : Option FieldMap
deriving DecidableEq, Repr

/-- The Python `or`-chain `f.get(a) or f.get(b) or ... or ""`: the first
present-and-non-empty value, else the empty string. -/
def firstTruthy : List (Option (List Char)) → List Char
  | [] => []
  | some v :: rest => if v ≠ [] then v else firstTruthy rest
  | none :: rest => firstTruthy rest

/-- `entry_to_publication` from the source. -/
def entry_to_publication (e : BibEntry) : Publication :=
  let f := e.fields
  let title := pyStrip (dictGetD f (S "title") [])
  let authorsRaw := dictGetD f (S "author") []
  let authors :=
    if authorsRaw ≠ [] then ((splitAnd authorsRaw).map pyStrip).filter (fun a => a ≠ [])
    else []
  let yearStr := pyStrip (dictGetD f (S "year") [])
  let year : Option Nat :=
    if yearStr ≠ [] then (findFourDigits yearStr).map digitsToNat else none
  let venue :=
    pyStrip (firstTruthy [dictGet? f (S "journal"), dictGet? f (S "booktitle"),
                          dictGet? f (S "publisher"), dictGet? f (S "school")])
  let links : FieldMap :=
    (match dictGet? f (S "doi") with
     | some d => if d ≠ [] then [(S "doi", pyStrip d)] else []
     | none => []) ++
    (match dictGet? f (S "url") with
     | some u => if u ≠ [] then [(S "url", pyStrip u)] else []
     | none => [])
  { title := title
    authors := if authors = [] then none else some authors
    year := year
    venue := if venue = [] then none else some venue
    type := e.entry_type
    links := if links = [] then none else some links }

/-- Lexicographic `≤` on strings by code point: Python string comparison. -/
def strLe : List Char → List Char → Bool
  | [], _ => true
  | _ :: _, [] => false
  | a :: as, b :: bs => a < b || (a = b && strLe as bs)

/-- The year component of `main.sort_key`: `p.get("year", 0)` is always an
integer (the record's year, or the default 0), so the key is `-year`. -/
def sortKeyYear (p : Publication) : Int :=
  -(Int.ofNat (p.year.getD 0))

/-- The title component of `main.sort_key`: `p.get("title", "").lower()`. -/
def sortKeyTitle (p : Publication) : List Char :=
  p.title.map asciiLower

/-- `main.sort_key` compared as a Python tuple `(-year, title.lower())`:
lexicographic on the integer, then the string. -/
def pubLEb (a b : Publication) : Bool :=
  sortKeyYear a < sortKeyYear b ||
  (sortKeyYear a = sortKeyYear b && strLe (sortKeyTitle a) (sortKeyTitle b))

/-- The sort relation as a proposition. -/
def pubLE (a b : Publication) : Prop := pubLEb a b = true

instance : DecidableRel pubLE :=
  fun a b => inferInstanceAs (Decidable (pubLEb a b = true))

/-- `pubs.sort(key=sort_key)`.  Python's sort is the stable sort by the key
order; stable sorting by a total preorder has a unique result, realized here
by insertion sort (which inserts each element after all earlier elements
whose key is `≤` its own). -/
def sortPubs (l : List Publication) : List Publication :=
  List.insertionSort pubLE l

/-- One hexadecimal digit (lowercase), for JSON `\u00xx` escapes. -/
def hexDigit (n : Nat) : Char :=
  if n < 10 then Char.ofNat (48 + n) else Char.ofNat (87 + n)

/-- The escaping `json.dump` applies to one character of a string with
`ensure_ascii=False`: quote, backslash and control characters are escaped,
everything else is emitted unchanged. -/
def jsonEscapeChar (c : Char) : List Char :=
  if c = '"' then ['\\', '"']
  else if c = '\\' then ['\\', '\\']
  else if c = '\n' then ['\\', 'n']
  else if c = '\r' then ['\\', 'r']
  else if c = '\t' then ['\\', 't']
  else if c = '\x08' then ['\\', 'b']
  else if c = '\x0c' then ['\\', 'f']
  else if c.toNat < 32 then
    ['\\', 'u', '0', '0', hexDigit (c.toNat / 16), hexDigit (c.toNat % 16)]
  else [c]

/-- A JSON string literal. -/
def jsonStr (s : List Char) : List Char :=
  '"' :: ((s.map jsonEscapeChar).flatten ++ ['"'])

/-- A JSON object from an insertion-ordered map whose values are already
serialized, with `json.dump`'s default separators `", "` and `": "`. -/
def jsonObjOf (items : List (List Char × List Char)) : List Char :=
  '{' :: (List.intercalate (S ", ")
    (items.map (fun kv => jsonStr kv.1 ++ S ": " ++ kv.2)) ++ ['}'])

/-- The key/serialized-value pairs of one record, in the dict's insertion
order (`title`, `authors`, `year`, `venue`, `type`, `links`, the optional
ones present exactly when not popped). -/
def pubItems (p : Publication) : List (List Char × List Char) :=
  [(S "title", jsonStr p.title)] ++
  (match p.authors with
   | some l =>
     [(S "authors", '[' :: (List.intercalate (S ", ") (l.map jsonStr) ++ [']']))]
   | none => []) ++
  (match p.year with
   | some y => [(S "year", (Nat.repr y).data)]
   | none => []) ++
  (match p.venue with
   | some v => [(S "venue", jsonStr v)]
   | none => []) ++
  [(S "type", jsonStr p.type)] ++
  (match p.links with
   | some m => [(S "links", jsonObjOf (m.map (fun kv => (kv.1, jsonStr kv.2))))]
   | none => [])

/-- The keys serialized for one record. -/
def pubKeys (p : Publication) : List (List Char) :=
  (pubItems p).map (fun kv => kv.1)

/-- `json.dump(pubs, f, ensure_ascii=False)`: one record as a compact JSON
object. -/
def dumpPub (p : Publication) : List Char :=
  jsonObjOf (pubItems p)

/-- The records as a compact JSON array. -/
def dumpPubs (ps : List Publication) : List Char :=
  '[' :: (List.intercalate (S ", ") (ps.map dumpPub) ++ [']'])

/-- `outp.lower().endswith(".json")`. -/
def endsWithJson (outp : List Char) : Bool :=
  (S ".json").isSuffixOf (outp.map asciiLower)

/-- `outp[:-5] + ".js"`. -/
def jsSiblingPath (outp : List Char) : List Char :=
  outp.take (outp.length - 5) ++ S ".js"

/-- The fixed header comment line of the `.js` artifact. -/
def jsHeader : List Char :=
  S "// Auto-generated from BibTeX. Do not edit by hand.\n"

/-- The `.js`-sibling step of `main`: when the output path ends in `.json`
(case-insensitively), the sibling path and the exact text written to it;
otherwise no artifact. -/
def jsArtifact (outp : List Char) (pubs : List Publication) :
    Option (List Char × List Char) :=
  if endsWithJson outp then
    some (jsSiblingPath outp,
          jsHeader ++ (S "window.PUBLICATIONS = " ++ (dumpPubs pubs ++ S ";\n")))
  else none

/-- The record pipeline of `main`: project each parsed entry and sort. -/
def projectAndSort (entries : List BibEntry) : List Publication :=
  sortPubs (entries.map entry_to_publication)

/-- Spec-side definition (for comparison with the code): the maximal digit
runs of a string, in order, accumulating the current run reversed. -/
def digitRunsGo : List Char → List Char → List (List Char)
  | [], cur => if cur = [] then [] else [cur.reverse]
  | c :: rest, cur =>
    if isAsciiDigit c then digitRunsGo rest (c :: cur)
    else if cur = [] then digitRunsGo rest []
    else cur.reverse :: digitRunsGo rest []

/-- Spec-side definition: the maximal digit runs of a string. -/
def digitRuns (s : List Char) : List (List Char) := digitRunsGo s []

/-- Spec-side definition, following the claim's words for the year rule:
parse "the first run of exactly 4 digits" — the first maximal digit run
whose length is exactly 4 — and return `none` when no such run exists. -/
def yearFromExactRun (s : List Char) : Option Nat :=
  ((digitRuns s).find? (fun r => r.length = 4)).map digitsToNat

/-- Four consecutive digits occur in `s` at position `i`. -/
def fourDigitsAt (s : List Char) (i : Nat) : Prop :=
  fourDigitStart (s.drop i) = true

instance (s : List Char) (i : Nat) : Decidable (fourDigitsAt s i) :=
  inferInstanceAs (Decidable (_ = true))

/-- The record with year 2020 and title `"B"` from the spec's sorting
example. -/
def pubB2020 : Publication :=
  { title := S "B", authors := none, year := some 2020, venue := none,
    type := S "misc", links := none }

/-- The record with year 2022 and title `"A"` from the spec's sorting
example. -/
def pubA2022 : Publication :=
  { title := S "A", authors := none, year := some 2022, venue := none,
    type := S "misc", links := none }

/-- The record with absent year and title `"C"` from the spec's sorting
example. -/
def pubCabsent : Publication :=
  { title := S "C", authors := none, year := none, venue := none,
    type := S "misc", links := none }

end Bib

namespace Bib

example : cleanTex (S "  A   Study ") = S "A Study" := by decide
example : cleanTex (S "Deep \x7bNested\x7d Title") = S "Deep Nested Title" := by decide
example : stripOuterBraces (S "\x7bA Study\x7d,") = S "A Study" := by decide
example : cleanTex (stripOuterBraces (S "\x7b\x7d")) = S "" := by decide



/-! ### Order lemmas for the sort key -/

theorem strLe_total : ∀ a b : List Char, strLe a b = true ∨ strLe b a = true
  | [], _ => Or.inl rfl
  | _ :: _, [] => Or.inr rfl
  | a :: as, b :: bs => by
    rcases lt_trichotomy a b with h | h | h
    · left; simp [strLe, h]
    · subst h
      rcases strLe_total as bs with ih | ih
      · left; simp [strLe, ih]
      · right; simp [strLe, ih]
    · right; simp [strLe, h]

theorem strLe_trans :
    ∀ a b c : List Char, strLe a b = true → strLe b c = true → strLe a c = true
  | [], _, _, _, _ => rfl
  | _ :: _, [], _, hab, _ => by simp [strLe] at hab
  | _ :: _, _ :: _, [], _, hbc => by simp [strLe] at hbc
  | a :: as, b :: bs, c :: cs, hab, hbc => by
    simp only [strLe, Bool.or_eq_true, Bool.and_eq_true, decide_eq_true_eq] at hab hbc ⊢
    rcases hab with hab | ⟨hab, hab'⟩
    · rcases hbc with hbc | ⟨hbc, _⟩
      · exact Or.inl (lt_trans hab hbc)
      · exact Or.inl (hbc ▸ hab)
    · rcases hbc with hbc | ⟨hbc, hbc'⟩
      · exact Or.inl (hab ▸ hbc)
      · exact Or.inr ⟨hab.trans hbc, strLe_trans as bs cs hab' hbc'⟩

instance : IsTotal Publication pubLE := by
  constructor
  intro a b
  unfold pubLE pubLEb
  rcases lt_trichotomy (sortKeyYear a) (sortKeyYear b) with h | h | h
  · left; simp [h]
  · rcases strLe_total (sortKeyTitle a) (sortKeyTitle b) with ht | ht
    · left; simp [h, ht]
    · right; simp [h.symm, ht]
  · right; simp [h]

instance : IsTrans Publication pubLE := by
  constructor
  intro a b c hab hbc
  unfold pubLE pubLEb at hab hbc ⊢
  simp only [Bool.or_eq_true, Bool.and_eq_true, decide_eq_true_eq] at hab hbc ⊢
  rcases hab with hab | ⟨hab, hab'⟩
  · rcases hbc with hbc | ⟨hbc, _⟩
    · exact Or.inl (lt_trans hab hbc)
    · exact Or.inl (hbc ▸ hab)
  · rcases hbc with hbc | ⟨hbc, hbc'⟩
    · exact Or.inl (hab ▸ hbc)
    · exact Or.inr ⟨hab.trans hbc, strLe_trans _ _ _ hab' hbc'⟩

example : sortPubs [pubB2020, pubA2022, pubCabsent] =
    [pubA2022, pubB2020, pubCabsent] := by decide

/-! ### C1: sorting by composite key -/

/-- C1 counterexample: for records with years `[2020, 2022, absent]` and
titles `["B", "A", "C"]`, the sorted order is not the claimed
`[absent("C"), 2022("A"), 2020("B")]`: the absent-year record does not sort
first. -/
theorem C1_counterexample :
    sortPubs [pubB2020, pubA2022, pubCabsent] ≠
      [pubCabsent, pubA2022, pubB2020] := by decide

/-- C1 (amended): the record sequence is stably sorted by the composite key
`(-(year or 0), lowercased title)` — the output is a permutation of the
input, pairwise ordered by the key, and order-preserving on key-respecting
pairs — and for records with years `[2020, 2022, absent]` and titles
`["B", "A", "C"]` the sorted order is `[2022("A"), 2020("B"), absent("C")]`:
treating a missing year as 0 makes absent-year records sort last (as oldest)
under the descending year order, not first. -/
theorem C1_thm :
    sortPubs [pubB2020, pubA2022, pubCabsent] =
      [pubA2022, pubB2020, pubCabsent] ∧
    (∀ l : List Publication, (sortPubs l).Perm l) ∧
    (∀ l : List Publication, (sortPubs l).Sorted pubLE) ∧
    (∀ (l : List Publication) (a b : Publication),
      pubLE a b → List.Sublist [a, b] l → List.Sublist [a, b] (sortPubs l)) := by
  refine ⟨by decide, ?_, ?_, ?_⟩
  · intro l; exact List.perm_insertionSort pubLE l
  · intro l; exact List.sorted_insertionSort pubLE l
  · intro l a b hab hsub; exact List.pair_sublist_insertionSort hab hsub

/-- Witness for C1: the stability clause applied at a concrete pair. -/
theorem C1_witness :
    List.Sublist [pubA2022, pubB2020] (sortPubs [pubA2022, pubB2020]) :=
  C1_thm.2.2.2 [pubA2022, pubB2020] pubA2022 pubB2020 (by decide) (by decide)

/-! ### C4: round trip on a well-formed entry -/

/-- The single well-formed entry of the round-trip property. -/
def c4Input : List Char :=
  S "@article\x7bk2023, title=\x7bA Study\x7d, author=\x7bA. One and B. Two\x7d, year=\x7b2023\x7d, journal=\x7bNature\x7d, doi=\x7b10.1/x\x7d\x7d"

/-- C4: parsing the well-formed single entry and projecting produces exactly
the claimed record. -/
theorem C4_thm :
    (parse_bibtex c4Input).map (List.map entry_to_publication) =
      some [{ title := S "A Study",
              authors := some [S "A. One", S "B. Two"],
              year := some 2023,
              venue := some (S "Nature"),
              type := S "article",
              links := some [(S "doi", S "10.1/x")] }] := by decide

/-! ### C3: storage of cleaned field values -/

/-- C3 counterexample: for the entry `@article{k, title={}}` the parsed field
map does store the key `title`, mapped to the empty string — the non-empty
test is applied to the raw value `"{}"`, not to the cleaned value. -/
theorem C3_counterexample :
    parse_bibtex (S "@article\x7bk, title=\x7b\x7d\x7d") =
      some [⟨S "article", S "k", [(S "title", [])]⟩] := by decide

/-- C3 (amended): the non-emptiness test is applied to the raw parsed value
before cleaning: the cleaned value is stored under the lowercased field name
whenever the raw value is non-empty (so `TITLE={}` stores `title ↦ ""`,
since the raw value `"{}"` is non-empty), and a field whose raw value is
empty (`title=,`) stores nothing. -/
theorem C3_thm :
    parse_bibtex (S "@article\x7bk, TITLE=\x7b\x7d, author=\x7bA\x7d\x7d") =
      some [⟨S "article", S "k", [(S "title", []), (S "author", S "A")]⟩] ∧
    parse_bibtex (S "@article\x7bk, title=, author=\x7bA\x7d\x7d") =
      some [⟨S "article", S "k", [(S "author", S "A")]⟩] := by
  exact ⟨by decide, by decide⟩

/-! ### C6: malformed-entry tolerance -/

/-- C6 counterexample: an entry whose citekey delimiter (comma) is missing is
not merely skipped — the scan finds the next comma inside the following
well-formed entry `@article{good, title={T}}`, swallowing it into the
malformed entry's citekey, so the well-formed entry is not parsed as its own
entry. -/
theorem C6_counterexample :
    parse_bibtex (S "@misc\x7bnokey\x7d @article\x7bgood, title=\x7bT\x7d\x7d") =
      some [⟨S "misc", S "nokey\x7d @article\x7bgood", [(S "title", S "T")]⟩] ∧
    ((parse_bibtex (S "@misc\x7bnokey\x7d @article\x7bgood, title=\x7bT\x7d\x7d")).getD
        []).all (fun e => ¬ e.citekey = S "good") = true := by
  exact ⟨by decide, by decide⟩

/-- C6 (amended): an unparseable entry-type header abandons only that `@`
occurrence and a field failing the name/`=` pattern truncates only that
entry's remaining field list, with well-formed entries elsewhere still
parsed; but a missing citekey delimiter is not locally contained: when no
comma remains the rest of the input is abandoned (earlier entries are kept
and the pass still returns normally), and when a later comma exists the scan
consumes text up to it, which can swallow a following well-formed entry. -/
theorem C6_thm :
    parse_bibtex (S "@@article\x7bgood, title=\x7bT\x7d\x7d") =
      some [⟨S "article", S "good", [(S "title", S "T")]⟩] ∧
    parse_bibtex
        (S "@article\x7bk, title=\x7bT\x7d, ?bad\x7d @misc\x7bm2, year=\x7b2020\x7d\x7d") =
      some [⟨S "article", S "k", [(S "title", S "T")]⟩,
            ⟨S "misc", S "m2", [(S "year", S "2020")]⟩] ∧
    parse_bibtex (S "@article\x7bgood, title=\x7bT\x7d\x7d @misc\x7bnokey\x7d") =
      some [⟨S "article", S "good", [(S "title", S "T")]⟩] := by
  exact ⟨by decide, by decide, by decide⟩

/-! ### C2: year extraction -/

/-- C2 counterexample: for a `year` field `"20235"` there is no maximal
digit run of length exactly 4 (the only run has five digits), so under the
claim's rule the `year` key would be omitted; the code instead parses the
first four consecutive digits and emits year 2023. -/
theorem C2_counterexample :
    (entry_to_publication ⟨S "misc", S "k", [(S "year", S "20235")]⟩).year =
      some 2023 ∧
    yearFromExactRun (pyStrip (S "20235")) = none := by
  exact ⟨by decide, by decide⟩

theorem fourDigitsAt_nil (i : Nat) : ¬ fourDigitsAt [] i := by
  simp [fourDigitsAt, fourDigitStart]

theorem fourDigitsAt_zero (s : List Char) :
    fourDigitsAt s 0 ↔ fourDigitStart s = true := by
  simp [fourDigitsAt]

theorem fourDigitsAt_succ (c : Char) (s : List Char) (i : Nat) :
    fourDigitsAt (c :: s) (i + 1) ↔ fourDigitsAt s i := by
  simp [fourDigitsAt, List.drop_succ_cons]

theorem findFourDigits_none_iff :
    ∀ s : List Char, findFourDigits s = none ↔ ∀ i, ¬ fourDigitsAt s i
  | [] => by
    constructor
    · intro _ i; exact fourDigitsAt_nil i
    · intro _; rfl
  | c :: rest => by
    by_cases h : fourDigitStart (c :: rest) = true
    · constructor
      · intro hco; rw [findFourDigits, if_pos h] at hco; cases hco
      · intro H; exact absurd ((fourDigitsAt_zero _).mpr h) (H 0)
    · rw [findFourDigits, if_neg h, findFourDigits_none_iff rest]
      constructor
      · intro H i
        cases i with
        | zero => rw [fourDigitsAt_zero]; exact h
        | succ i => rw [fourDigitsAt_succ]; exact H i
      · intro H i
        have := H (i + 1)
        rwa [fourDigitsAt_succ] at this

theorem findFourDigits_some_iff :
    ∀ s d : List Char, findFourDigits s = some d ↔
      ∃ i, fourDigitsAt s i ∧ (∀ k, k < i → ¬ fourDigitsAt s k) ∧
        d = (s.drop i).take 4
  | [], d => by
    constructor
    · intro h; cases h
    · rintro ⟨i, hi, -, -⟩; exact absurd hi (fourDigitsAt_nil i)
  | c :: rest, d => by
    by_cases h : fourDigitStart (c :: rest) = true
    · rw [findFourDigits, if_pos h]
      constructor
      · intro hd
        refine ⟨0, (fourDigitsAt_zero _).mpr h, ?_, ?_⟩
        · intro k hk; exact absurd hk (Nat.not_lt_zero k)
        · cases hd; rfl
      · rintro ⟨i, hi, hmin, hd⟩
        cases i with
        | zero => rw [hd]; rfl
        | succ i => exact absurd ((fourDigitsAt_zero _).mpr h) (hmin 0 (Nat.succ_pos _))
    · rw [findFourDigits, if_neg h, findFourDigits_some_iff rest d]
      constructor
      · rintro ⟨i, hi, hmin, hd⟩
        refine ⟨i + 1, (fourDigitsAt_succ _ _ _).mpr hi, ?_, ?_⟩
        · intro k hk
          cases k with
          | zero => rw [fourDigitsAt_zero]; exact h
          | succ k => rw [fourDigitsAt_succ]; exact hmin k (Nat.lt_of_succ_lt_succ hk)
        · simpa [List.drop_succ_cons] using hd
      · rintro ⟨i, hi, hmin, hd⟩
        cases i with
        | zero => exact absurd ((fourDigitsAt_zero _).mp hi) h
        | succ i =>
          refine ⟨i, (fourDigitsAt_succ _ _ _).mp hi, ?_, ?_⟩
          · intro k hk
            have := hmin (k + 1) (Nat.succ_lt_succ hk)
            rwa [fourDigitsAt_succ] at this
          · simpa [List.drop_succ_cons] using hd

/-- The `year` computation of `entry_to_publication`, extracted. -/
theorem entry_year_eq (e : BibEntry) :
    (entry_to_publication e).year =
      (if pyStrip (dictGetD e.fields (S "year") []) ≠ [] then
        (findFourDigits (pyStrip (dictGetD e.fields (S "year") []))).map digitsToNat
       else none) := rfl

/-- C2 (amended): the record's `year` is the integer given by the first four
consecutive digits found anywhere in the stripped `year` field — a 4-digit
window that may be a proper prefix of a longer digit run — and the `year`
key is omitted exactly when the field is absent, or no position of its value
holds four consecutive digits. -/
theorem C2_thm (e : BibEntry) :
    ((entry_to_publication e).year = none ↔
      ∀ i, ¬ fourDigitsAt (pyStrip (dictGetD e.fields (S "year") [])) i) ∧
    ∀ y : Nat, ((entry_to_publication e).year = some y ↔
      ∃ i, fourDigitsAt (pyStrip (dictGetD e.fields (S "year") [])) i ∧
        (∀ k, k < i → ¬ fourDigitsAt (pyStrip (dictGetD e.fields (S "year") [])) k) ∧
        y = digitsToNat (((pyStrip (dictGetD e.fields (S "year") [])).drop i).take 4)) := by
  rw [entry_year_eq]
  by_cases hys : pyStrip (dictGetD e.fields (S "year") []) = []
  · rw [hys]
    constructor
    · simp only [ne_eq, not_true_eq_false, if_false]
      constructor
      · intro _ i; exact fourDigitsAt_nil i
      · intro _; trivial
    · intro y
      simp only [ne_eq, not_true_eq_false, if_false]
      constructor
      · intro h; cases h
      · rintro ⟨i, hi, -, -⟩; exact absurd hi (fourDigitsAt_nil i)
  · rw [if_pos hys]
    constructor
    · rw [Option.map_eq_none']
      exact findFourDigits_none_iff _
    · intro y
      rw [Option.map_eq_some']
      constructor
      · rintro ⟨d, hd, hy⟩
        obtain ⟨i, hi, hmin, hdd⟩ := (findFourDigits_some_iff _ d).mp hd
        exact ⟨i, hi, hmin, by rw [← hy, hdd]⟩
      · rintro ⟨i, hi, hmin, hy⟩
        exact ⟨_, (findFourDigits_some_iff _ _).mpr ⟨i, hi, hmin, rfl⟩, hy.symm⟩

/-- Witness for C2: applied at a concrete entry whose year field holds a
four-digit window at position 3. -/
theorem C2_witness :
    (entry_to_publication ⟨S "misc", S "k", [(S "year", S "in 2021.")]⟩).year =
      some 2021 :=
  ((C2_thm ⟨S "misc", S "k", [(S "year", S "in 2021.")]⟩).2 2021).mpr
    ⟨3, by decide, by decide, by decide⟩

/-! ### C5: key-presence invariants of the serialized record -/

/-- The serializer emits `title` and `type` for every record, and each
optional key exactly when its option is populated. -/
theorem pubKeys_mem (p : Publication) :
    S "title" ∈ pubKeys p ∧ S "type" ∈ pubKeys p ∧
    (S "authors" ∈ pubKeys p ↔ p.authors.isSome = true) ∧
    (S "year" ∈ pubKeys p ↔ p.year.isSome = true) ∧
    (S "venue" ∈ pubKeys p ↔ p.venue.isSome = true) ∧
    (S "links" ∈ pubKeys p ↔ p.links.isSome = true) := by
  obtain ⟨t, a, y, v, ty, lk⟩ := p
  rcases a <;> rcases y <;> rcases v <;> rcases lk <;>
    simp [pubKeys, pubItems, S]

/-- Projection never populates an optional field with an empty value. -/
theorem entry_pub_opts (e : BibEntry) :
    (entry_to_publication e).authors ≠ some [] ∧
    (entry_to_publication e).venue ≠ some [] ∧
    (entry_to_publication e).links ≠ some [] := by
  dsimp only [entry_to_publication]
  refine ⟨?_, ?_, ?_⟩ <;> split_ifs <;> simp_all

/-- C5: every serialized record has the keys `title` and `type`, and each of
the optional keys `authors`, `year`, `venue`, `links` appears exactly when
its value is present and non-empty (a populated option is never the empty
list / empty map, and `year` is an integer whenever present). -/
theorem C5_thm (e : BibEntry) :
    S "title" ∈ pubKeys (entry_to_publication e) ∧
    S "type" ∈ pubKeys (entry_to_publication e) ∧
    (S "authors" ∈ pubKeys (entry_to_publication e) ↔
      ∃ l, (entry_to_publication e).authors = some l ∧ l ≠ []) ∧
    (S "year" ∈ pubKeys (entry_to_publication e) ↔
      ∃ y, (entry_to_publication e).year = some y) ∧
    (S "venue" ∈ pubKeys (entry_to_publication e) ↔
      ∃ v, (entry_to_publication e).venue = some v ∧ v ≠ []) ∧
    (S "links" ∈ pubKeys (entry_to_publication e) ↔
      ∃ m, (entry_to_publication e).links = some m ∧ m ≠ []) := by
  obtain ⟨h1, h2, h3, h4, h5, h6⟩ := pubKeys_mem (entry_to_publication e)
  obtain ⟨ha, hv, hl⟩ := entry_pub_opts e
  refine ⟨h1, h2, ?_, ?_, ?_, ?_⟩
  · rw [h3]
    constructor
    · intro hs
      obtain ⟨l, heq⟩ := Option.isSome_iff_exists.mp hs
      exact ⟨l, heq, fun hnil => ha (hnil ▸ heq)⟩
    · rintro ⟨l, heq, -⟩; simp [heq]
  · rw [h4, Option.isSome_iff_exists]
  · rw [h5]
    constructor
    · intro hs
      obtain ⟨v', heq⟩ := Option.isSome_iff_exists.mp hs
      exact ⟨v', heq, fun hnil => hv (hnil ▸ heq)⟩
    · rintro ⟨v', heq, -⟩; simp [heq]
  · rw [h6]
    constructor
    · intro hs
      obtain ⟨m, heq⟩ := Option.isSome_iff_exists.mp hs
      exact ⟨m, heq, fun hnil => hl (hnil ▸ heq)⟩
    · rintro ⟨m, heq, -⟩; simp [heq]

/-- Witness for C5: applied at a concrete entry. -/
theorem C5_witness :
    S "title" ∈ pubKeys (entry_to_publication ⟨S "misc", S "k", []⟩) :=
  (C5_thm ⟨S "misc", S "k", []⟩).1

/-! ### C7, C8: totality of the scan loops

Every scanner only moves forward, and each iteration of the field loop and
of the main loop advances its index by at least one character; hence the
canonical fuel suffices on every input. -/

theorem skipWs_ge (t : List Char) (i : Nat) : i ≤ skipWs t i :=
  Nat.le_add_right _ _

theorem braceScanF_ge (fuel : Nat) :
    ∀ (t : List Char) (i : Nat) (d : Int), i ≤ braceScanF fuel t i d := by
  induction fuel with
  | zero => intro t i d; exact Nat.le_refl _
  | succ fuel ih =>
    intro t i d
    rw [braceScanF]
    cases hg : t.get? i with
    | none => exact Nat.le_refl _
    | some ch =>
      dsimp only
      split_ifs <;>
        first
          | exact Nat.le_succ _
          | exact le_trans (Nat.le_succ i) (ih t (i + 1) _)

theorem quoteScanF_ge (fuel : Nat) :
    ∀ (t : List Char) (i : Nat) (esc : Bool), i ≤ (quoteScanF fuel t i esc).2 := by
  induction fuel with
  | zero => intro t i esc; exact Nat.le_refl _
  | succ fuel ih =>
    intro t i esc
    rw [quoteScanF]
    cases hg : t.get? i with
    | none => exact Nat.le_refl _
    | some ch =>
      dsimp only
      split_ifs <;>
        first
          | exact Nat.le_succ _
          | exact le_trans (Nat.le_succ i) (ih t (i + 1) _)

theorem depthScanF_ge (fuel : Nat) :
    ∀ (raw : List Char) (i : Nat) (d : Int), i ≤ depthScanF fuel raw i d := by
  induction fuel with
  | zero => intro raw i d; exact Nat.le_refl _
  | succ fuel ih =>
    intro raw i d
    rw [depthScanF]
    split_ifs
    · exact Nat.le_refl _
    · cases hg : raw.get? i with
      | none => exact Nat.le_refl _
      | some ch => exact le_trans (Nat.le_succ i) (ih raw (i + 1) _)

theorem parseValue_ge (t : List Char) (i0 : Nat) : i0 ≤ (parseValue t i0).2 := by
  unfold parseValue
  dsimp only
  cases hg : t.get? (skipWs t i0) with
  | none => exact skipWs_ge t i0
  | some c =>
    dsimp only
    split_ifs <;> dsimp only <;>
      first
        | exact le_trans (skipWs_ge t i0) (braceScanF_ge _ _ _ _)
        | exact le_trans (skipWs_ge t i0)
            (le_trans (Nat.le_succ _) (quoteScanF_ge _ t (skipWs t i0 + 1) false))
        | exact le_trans (skipWs_ge t i0) (Nat.le_add_right _ _)

theorem matchFieldName_some_ge (t : List Char) (j : Nat) (nm : List Char)
    (j2 : Nat) (h : matchFieldName t j = some (nm, j2)) : j + 2 ≤ j2 := by
  unfold matchFieldName at h
  cases hd : t.drop j with
  | nil => rw [hd] at h; cases h
  | cons c rest =>
    rw [hd] at h
    dsimp only at h
    split_ifs at h
    simp only [Option.some.injEq, Prod.mk.injEq] at h
    omega

theorem matchEntryType_some_ge (s : List Char) (i : Nat) (ty : List Char)
    (j : Nat) (h : matchEntryType s i = some (ty, j)) : i + 1 ≤ j := by
  unfold matchEntryType at h
  dsimp only at h
  split_ifs at h
  simp only [Option.some.injEq, Prod.mk.injEq] at h
  omega

theorem findFrom_ge (s : List Char) (c : Char) (i k : Nat)
    (h : findFrom s c i = some k) : i ≤ k := by
  unfold findFrom at h
  cases hf : (s.drop i).findIdx? (fun d => d = c) with
  | none => rw [hf] at h; cases h
  | some idx => rw [hf] at h; injection h with h'; omega

theorem parseFieldsF_total :
    ∀ (fuel : Nat) (t : List Char) (j : Nat) (m : FieldMap),
      0 < fuel → t.length + 1 ≤ fuel + j →
      (parseFieldsF fuel t j m).isSome = true := by
  intro fuel
  induction fuel with
  | zero => intro t j m h0 _; exact absurd h0 (lt_irrefl 0)
  | succ fuel ih =>
    intro t j m _ hle
    rw [parseFieldsF]
    by_cases hend : skipSeps t j ≥ t.length
    · rw [if_pos hend]; rfl
    · rw [if_neg hend]
      cases hm : matchFieldName t (skipSeps t j) with
      | none => rfl
      | some nmj =>
        obtain ⟨nm, j2⟩ := nmj
        have hsk : skipSeps t j < t.length := Nat.lt_of_not_le hend
        have hj : j ≤ skipSeps t j := Nat.le_add_right _ _
        have h2 := matchFieldName_some_ge t (skipSeps t j) nm j2 hm
        have h3 := parseValue_ge t j2
        have h4 : (parseValue t j2).2 ≤ consumeToComma t (parseValue t j2).2 :=
          Nat.le_add_right _ _
        apply ih
        · omega
        · split_ifs <;> omega

/-- When `parseFieldsF` runs with its canonical fuel it returns a result. -/
theorem parseFieldsF_canonical (t : List Char) (m : FieldMap) :
    ∃ m', parseFieldsF (t.length + 1) t 0 m = some m' :=
  Option.isSome_iff_exists.mp
    (parseFieldsF_total (t.length + 1) t 0 m (Nat.succ_pos _) (by omega))

theorem parseLoop_isSome :
    ∀ (fuel : Nat) (raw : List Char) (i : Nat) (acc : List BibEntry),
      0 < fuel → raw.length + 1 ≤ fuel + i →
      (parseLoop fuel raw i acc).isSome = true := by
  intro fuel
  induction fuel with
  | zero => intro raw i acc h0 _; exact absurd h0 (lt_irrefl 0)
  | succ fuel ih =>
    intro raw i acc _ hle
    rw [parseLoop]
    by_cases hin : i < raw.length
    · rw [if_pos hin]
      cases hat : findFrom raw '@' i with
      | none => rfl
      | some atPos =>
        dsimp only
        have hatge := findFrom_ge raw '@' i atPos hat
        cases hm : matchEntryType raw (atPos + 1) with
        | none => exact ih raw (atPos + 1) acc (by omega) (by omega)
        | some tyj =>
          obtain ⟨ty, i2⟩ := tyj
          dsimp only
          have h2 := matchEntryType_some_ge raw (atPos + 1) ty i2 hm
          cases hcm : findFrom raw ',' i2 with
          | none => rfl
          | some comma =>
            dsimp only
            have h3 := findFrom_ge raw ',' i2 comma hcm
            have h4 := depthScanF_ge (raw.length - (comma + 1)) raw (comma + 1) 1
            obtain ⟨fields, hf⟩ :=
              parseFieldsF_canonical
                (pySlice raw (comma + 1)
                  (depthScanF (raw.length - (comma + 1)) raw (comma + 1) 1 - 1)) []
            rw [hf]
            exact ih raw _ _ (by omega) (by omega)
    · rw [if_neg hin]; rfl

/-- C7: on every input string — including arbitrarily malformed BibTeX — the
parse function returns a sequence of entries normally: the embedded scan,
whose `none` outcome models a run that fails to return, always produces a
result (all indexing is bounds-checked and no conversion can fail). -/
theorem C7_thm (raw : List Char) : (parse_bibtex raw).isSome = true := by
  unfold parse_bibtex
  exact parseLoop_isSome _ _ 0 [] (Nat.succ_pos _) (by omega)

/-- C8: the main scan loop terminates on every finite input: every iteration
advances the scan position by at least one character (in particular, when
the entry-type pattern fails to match after an `@`, the next search resumes
at the character after that `@`), so from any start index `i` the loop
completes within any fuel covering the remaining `raw.length + 1 - i`
characters — no input can cause an infinite loop. -/
theorem C8_thm (raw : List Char) (fuel i : Nat) (acc : List BibEntry)
    (h0 : 0 < fuel) (hfuel : raw.length + 1 ≤ fuel + i) :
    (parseLoop fuel raw i acc).isSome = true :=
  parseLoop_isSome fuel raw i acc h0 hfuel

/-- Witness for C8: the canonical fuel suffices on a concrete input. -/
theorem C8_witness : (parseLoop 2 (S "@") 0 []).isSome = true :=
  C8_thm (S "@") 2 0 [] (by decide) (by decide)

/-! ### C9: the `.js` sibling artifact -/

/-- C9: the `.js` sibling is written exactly when the output path ends in
`.json` case-insensitively (equivalently, its lowercasing splits as
`stem ++ ".json"`); for `pubs.JSON` the sibling is `pubs.js` and its content
is the header line, the assignment prefix, the compact JSON records and a
closing `;` with newline; for `pubs.txt` no artifact is produced. -/
theorem C9_thm :
    (∀ ps : List Publication,
      jsArtifact (S "pubs.JSON") ps =
        some (S "pubs.js",
          jsHeader ++ (S "window.PUBLICATIONS = " ++ (dumpPubs ps ++ S ";\n")))) ∧
    (∀ ps : List Publication, jsArtifact (S "pubs.txt") ps = none) ∧
    (∀ (outp : List Char) (ps : List Publication),
      (jsArtifact outp ps).isSome = true ↔
        ∃ stem : List Char, stem ++ S ".json" = outp.map asciiLower) ∧
    jsArtifact (S "pubs.JSON") [pubA2022] =
      some (S "pubs.js",
        S "// Auto-generated from BibTeX. Do not edit by hand.\nwindow.PUBLICATIONS = [\x7b\"title\": \"A\", \"year\": 2022, \"type\": \"misc\"\x7d];\n") := by
  refine ⟨?_, ?_, ?_, by decide⟩
  · intro ps
    unfold jsArtifact
    rw [if_pos (by decide)]
    rfl
  · intro ps
    unfold jsArtifact
    rw [if_neg (by decide)]
  · intro outp ps
    unfold jsArtifact
    by_cases h : endsWithJson outp = true
    · rw [if_pos h]
      simp only [Option.isSome_some, true_iff]
      have := (List.isSuffixOf_iff_suffix).mp h
      obtain ⟨stem, hs⟩ := this
      exact ⟨stem, hs⟩
    · rw [if_neg h]
      simp only [Option.isSome_none, Bool.false_eq_true, false_iff]
      rintro ⟨stem, hs⟩
      exact h (List.isSuffixOf_iff_suffix.mpr ⟨stem, hs⟩)

/-- Witness for C9: applied at the concrete path `pubs.txt`. -/
theorem C9_witness : jsArtifact (S "pubs.txt") [] = none :=
  C9_thm.2.1 []

/-! ### C10: entry types are non-empty lowercase letters -/

theorem toNat_ofNat_valid (n : Nat) (h : n.isValidChar) :
    (Char.ofNat n).toNat = n := by
  unfold Char.ofNat
  rw [dif_pos h]
  simp [Char.ofNatAux, Char.toNat, UInt32.toNat, BitVec.toNat_ofNatLt]

theorem char_le_iff_toNat (a b : Char) : a ≤ b ↔ a.toNat ≤ b.toNat :=
  ⟨fun h => h, fun h => h⟩

theorem asciiLower_lower (c : Char) (h : isAsciiAlpha c = true) :
    'a' ≤ asciiLower c ∧ asciiLower c ≤ 'z' := by
  simp only [isAsciiAlpha, Bool.or_eq_true, Bool.and_eq_true,
    decide_eq_true_eq] at h
  unfold asciiLower
  rcases h with ⟨h1, h2⟩ | ⟨h1, h2⟩
  · rw [if_pos (by simp [h1, h2])]
    have h1' : (65 : Nat) ≤ c.toNat := (char_le_iff_toNat 'A' c).mp h1
    have h2' : c.toNat ≤ 90 := (char_le_iff_toNat c 'Z').mp h2
    have hv : (c.toNat + 32).isValidChar := Or.inl (by omega)
    constructor
    · rw [char_le_iff_toNat, toNat_ofNat_valid _ hv]
      show 97 ≤ c.toNat + 32
      omega
    · rw [char_le_iff_toNat, toNat_ofNat_valid _ hv]
      show c.toNat + 32 ≤ 122
      omega
  · rw [if_neg ?hneg]
    · exact ⟨h1, h2⟩
    case hneg =>
      have h1' : (97 : Nat) ≤ c.toNat := (char_le_iff_toNat 'a' c).mp h1
      simp only [Bool.and_eq_true, decide_eq_true_eq, not_and]
      intro hA hZ
      have h2' : c.toNat ≤ 90 := (char_le_iff_toNat c 'Z').mp hZ
      omega

theorem matchEntryType_some_type (s : List Char) (i : Nat) (ty : List Char)
    (j : Nat) (h : matchEntryType s i = some (ty, j)) :
    ty ≠ [] ∧ ∀ c ∈ ty, 'a' ≤ c ∧ c ≤ 'z' := by
  unfold matchEntryType at h
  dsimp only at h
  split_ifs at h with h1 h2
  simp only [Option.some.injEq, Prod.mk.injEq] at h
  obtain ⟨hty, -⟩ := h
  subst hty
  constructor
  · simpa using h1
  · intro c hc
    rw [List.mem_map] at hc
    obtain ⟨c0, hc0, rfl⟩ := hc
    exact asciiLower_lower c0 (List.mem_takeWhile_imp hc0)

theorem parseLoop_types :
    ∀ (fuel : Nat) (raw : List Char) (i : Nat) (acc es : List BibEntry),
      (∀ e ∈ acc, e.entry_type ≠ [] ∧ ∀ c ∈ e.entry_type, 'a' ≤ c ∧ c ≤ 'z') →
      parseLoop fuel raw i acc = some es →
      ∀ e ∈ es, e.entry_type ≠ [] ∧ ∀ c ∈ e.entry_type, 'a' ≤ c ∧ c ≤ 'z' := by
  intro fuel
  induction fuel with
  | zero => intro raw i acc es hacc h; cases h
  | succ fuel ih =>
    intro raw i acc es hacc h
    rw [parseLoop] at h
    by_cases hin : i < raw.length
    · rw [if_pos hin] at h
      cases hat : findFrom raw '@' i with
      | none =>
        rw [hat] at h
        injection h with h'
        subst h'
        exact hacc
      | some atPos =>
        rw [hat] at h
        dsimp only at h
        cases hm : matchEntryType raw (atPos + 1) with
        | none =>
          rw [hm] at h
          exact ih raw (atPos + 1) acc es hacc h
        | some tyj =>
          obtain ⟨ty, i2⟩ := tyj
          rw [hm] at h
          dsimp only at h
          cases hcm : findFrom raw ',' i2 with
          | none =>
            rw [hcm] at h
            injection h with h'
            subst h'
            exact hacc
          | some comma =>
            rw [hcm] at h
            dsimp only at h
            cases hf : parseFieldsF
                ((pySlice raw (comma + 1)
                  (depthScanF (raw.length - (comma + 1)) raw (comma + 1) 1 - 1)).length + 1)
                (pySlice raw (comma + 1)
                  (depthScanF (raw.length - (comma + 1)) raw (comma + 1) 1 - 1)) 0 [] with
            | none => rw [hf] at h; cases h
            | some fields =>
              rw [hf] at h
              refine ih raw _ _ _ ?_ h
              intro e he
              rw [List.mem_append] at he
              rcases he with he | he
              · exact hacc e he
              · rw [List.mem_singleton] at he
                subst he
                exact matchEntryType_some_type raw (atPos + 1) ty i2 hm
    · rw [if_neg hin] at h
      injection h with h'
      subst h'
      exact hacc

/-- C10: every emitted record's `type` is a non-empty string of lowercase
ASCII letters: an entry is only created when its type matches the
letters-only pattern `[A-Za-z]+`, which is then lowercased, and projection
copies it verbatim. -/
theorem C10_thm (raw : List Char) (p : Publication)
    (h : p ∈ ((parse_bibtex raw).getD []).map entry_to_publication) :
    p.type ≠ [] ∧ ∀ c ∈ p.type, 'a' ≤ c ∧ c ≤ 'z' := by
  rw [List.mem_map] at h
  obtain ⟨e, he, rfl⟩ := h
  show e.entry_type ≠ [] ∧ ∀ c ∈ e.entry_type, 'a' ≤ c ∧ c ≤ 'z'
  cases hp : parse_bibtex raw with
  | none => rw [hp] at he; cases he
  | some es =>
    rw [hp] at he
    unfold parse_bibtex at hp
    exact parseLoop_types _ _ 0 [] es (by intro e' he'; cases he') hp e he

/-- Witness for C10: applied at a concrete input and its parsed record. -/
theorem C10_witness :
    (entry_to_publication ⟨S "misc", S "k", []⟩).type ≠ [] ∧
    ∀ c ∈ (entry_to_publication ⟨S "misc", S "k", []⟩).type,
      'a' ≤ c ∧ c ≤ 'z' :=
  C10_thm (S "@misc\x7bk, \x7d") (entry_to_publication ⟨S "misc", S "k", []⟩)
    (by decide)

end Bib
